import Mathlib

/-!
Verification of the dataflow-hub deduplication/merge engine and batch-import
orchestrator, shallowly embedded from the Python sources
(src/core/data_processor.py, src/core/base_importer.py,
src/utils/field_normalizer.py).

Modelling conventions:
* Python scalar cell values are the inductive PyVal: None is vnull, a float
  NaN is vnan, numbers are rationals (vnum), strings are vstr.  Python type
  errors (raised exceptions from mixed-type arithmetic or comparison) are
  modelled by Option results, none standing for a raised exception.
* A Python dict record is an association list keyed by strings, first match
  wins, missing key reads as vnull (dict.get default None).
* Wall-clock fields (start_time, end_time, duration) of ProcessingStats are
  outside the embedding; the counter fields are kept.
-/

inductive PyVal where
  | vnull : PyVal
  | vnan : PyVal
  | vnum (q : ℚ) : PyVal
  | vstr (s : String) : PyVal
deriving DecidableEq, Repr

abbrev Record := List (String × PyVal)

/-- Python record.get(field): first binding wins, missing field reads as None. -/
def recordGet (r : Record) (f : String) : PyVal :=
  match r.find? (fun p => p.1 == f) with
  | some p => p.2
  | none => PyVal.vnull

/-- Python dict assignment record[field] = v: update in place if the key is
present, otherwise append the new key at the end (insertion order). -/
def recordSet (r : Record) (f : String) (v : PyVal) : Record :=
  if r.any (fun p => p.1 == f) then
    r.map (fun p => if p.1 == f then (f, v) else p)
  else
    r ++ [(f, v)]

/-- Python str(v) for the value forms that reach string conversion; integers
print without a fractional part. -/
def pyStr : PyVal → String
  | PyVal.vnull => "None"
  | PyVal.vnan => "nan"
  | PyVal.vnum q => if q.den = 1 then toString q.num else toString q
  | PyVal.vstr s => s

/-- MergeStrategy enum of data_processor.py. -/
inductive MergeStrategy where
  | first | last | keep_max | merge
deriving DecidableEq, Repr

/-- FieldMergeMode enum of data_processor.py. -/
inductive FieldMergeMode where
  | modeSum | modeMax | modeMin | modeAvg | modeFirst | modeLast | modeConcat
deriving DecidableEq, Repr

/-- The filter used by _apply_merge_mode: v is not None and not a float NaN. -/
def isNullOrNaN : PyVal → Bool
  | PyVal.vnull => true
  | PyVal.vnan => true
  | _ => false

/-- Test v is None (the Python comparison used by the first/last modes). -/
def isNone : PyVal → Bool
  | PyVal.vnull => true
  | _ => false

def asNum : PyVal → Option ℚ
  | PyVal.vnum q => some q
  | _ => none

def asStr : PyVal → Option String
  | PyVal.vstr s => some s
  | _ => none

/-- Structural mapM over Option, written out so that its equations are plain
structural recursion. -/
def mapOption (f : α → Option β) : List α → Option (List β)
  | [] => some []
  | x :: xs => (f x).bind (fun y => (mapOption f xs).map (fun ys => y :: ys))

/-- Python max over a nonempty list: defined when all elements are numbers or
all are strings (otherwise the comparison raises, modelled as none). -/
def pyMax (l : List PyVal) : Option PyVal :=
  match mapOption asNum l with
  | some (q :: qs) => some (PyVal.vnum (qs.foldl max q))
  | some [] => none
  | none =>
    match mapOption asStr l with
    | some (s :: ss) => some (PyVal.vstr (ss.foldl max s))
    | _ => none

/-- Python min over a nonempty list, same definedness as pyMax. -/
def pyMin (l : List PyVal) : Option PyVal :=
  match mapOption asNum l with
  | some (q :: qs) => some (PyVal.vnum (qs.foldl min q))
  | some [] => none
  | none =>
    match mapOption asStr l with
    | some (s :: ss) => some (PyVal.vstr (ss.foldl min s))
    | _ => none

/-- DataProcessor._apply_merge_mode.  Filters out None/NaN; an all-filtered
field resolves to None; sum/max/min/avg/concat act on the filtered list; the
first/last modes pick the first/last non-None raw value. -/
def applyMergeMode (values : List PyVal) (mode : FieldMergeMode) : Option PyVal :=
  let filtered := values.filter (fun v => !(isNullOrNaN v))
  if filtered.isEmpty then some PyVal.vnull
  else
    match mode with
    | FieldMergeMode.modeSum => (mapOption asNum filtered).map (fun qs => PyVal.vnum qs.sum)
    | FieldMergeMode.modeMax => pyMax filtered
    | FieldMergeMode.modeMin => pyMin filtered
    | FieldMergeMode.modeAvg =>
        (mapOption asNum filtered).map (fun qs => PyVal.vnum (qs.sum / (qs.length : ℚ)))
    | FieldMergeMode.modeConcat =>
        some (PyVal.vstr (String.intercalate " | " (filtered.map pyStr)))
    | FieldMergeMode.modeFirst => some (((values.filter (fun v => !(isNone v))).headD PyVal.vnull))
    | FieldMergeMode.modeLast => some (((values.filter (fun v => !(isNone v))).getLastD PyVal.vnull))

/-- The merge-mode contract as the spec states it: a field whose values are
all None/NaN resolves to null; otherwise sum/max/min/avg/concat act on the
None/NaN-filtered values while first/last return the first/last non-null raw
value in original order. -/
def applyMergeModeSpec (values : List PyVal) (mode : FieldMergeMode) : Option PyVal :=
  if values.all isNullOrNaN then some PyVal.vnull
  else
    let filtered := values.filter (fun v => !(isNullOrNaN v))
    match mode with
    | FieldMergeMode.modeSum => (mapOption asNum filtered).map (fun qs => PyVal.vnum qs.sum)
    | FieldMergeMode.modeMax => pyMax filtered
    | FieldMergeMode.modeMin => pyMin filtered
    | FieldMergeMode.modeAvg =>
        (mapOption asNum filtered).map (fun qs => PyVal.vnum (qs.sum / (qs.length : ℚ)))
    | FieldMergeMode.modeConcat =>
        some (PyVal.vstr (String.intercalate " | " (filtered.map pyStr)))
    | FieldMergeMode.modeFirst => some (((values.filter (fun v => !(isNone v))).headD PyVal.vnull))
    | FieldMergeMode.modeLast => some (((values.filter (fun v => !(isNone v))).getLastD PyVal.vnull))

/-- merge_rules.get(field, FieldMergeMode.LAST). -/
def modeOf (rules : List (String × FieldMergeMode)) (f : String) : FieldMergeMode :=
  match rules.find? (fun p => p.1 == f) with
  | some p => p.2
  | none => FieldMergeMode.modeLast

/-- Keep the first occurrence of each element not already in seen. -/
def firstSeenFrom [DecidableEq α] (seen : List α) : List α → List α
  | [] => []
  | x :: xs => if x ∈ seen then firstSeenFrom seen xs else x :: firstSeenFrom (x :: seen) xs

/-- First-seen-order list of the distinct elements of l (models iterating a
Python dict keyed by those elements). -/
def firstSeen [DecidableEq α] (l : List α) : List α :=
  firstSeenFrom [] l

/-- The union of field names across the group of records (the set iteration of
_merge_records, fixed to first-seen order; the merged value of a field depends
only on the field, so the set iteration order is immaterial). -/
def allFields (records : List Record) : List String :=
  firstSeen ((records.map (fun r => r.map Prod.fst)).flatten)

/-- DataProcessor._merge_records: start from the last record of the group and
overwrite every field of the union with the merge-mode result; none models a
raised type error from a merge mode. -/
def mergeRecords (records : List Record) (rules : List (String × FieldMergeMode)) :
    Option Record :=
  match records.getLast? with
  | none => none
  | some base =>
    (allFields records).foldl
      (fun acc f =>
        acc.bind (fun m =>
          (applyMergeMode (records.map (fun r => recordGet r f)) (modeOf rules f)).map
            (fun v => recordSet m f v)))
      (some base)

/-- The keep_max strategy priority: record.get('priority_field', 0). -/
def priorityOf (r : Record) : PyVal :=
  match r.find? (fun p => p.1 == "priority_field") with
  | some p => p.2
  | none => PyVal.vnum 0

/-- Python string less-than: lexicographic comparison by code point, written
over the character lists so that it reduces in the kernel. -/
def pyStrLtData : List Char → List Char → Bool
  | [], [] => false
  | [], _ :: _ => true
  | _ :: _, [] => false
  | a :: as, b :: bs =>
    if a.toNat < b.toNat then true
    else if b.toNat < a.toNat then false
    else pyStrLtData as bs

/-- Python a > b on priority values: numbers compare numerically, any
comparison involving a float NaN is False (it does not raise), strings compare
lexicographically by code point, and every other pairing (None on either side,
or a number against a string) raises TypeError, modelled as none. -/
def pyGt : PyVal → PyVal → Option Bool
  | PyVal.vnum a, PyVal.vnum b => some (decide (b < a))
  | PyVal.vnum _, PyVal.vnan => some false
  | PyVal.vnan, PyVal.vnum _ => some false
  | PyVal.vnan, PyVal.vnan => some false
  | PyVal.vstr a, PyVal.vstr b => some (pyStrLtData b.data a.data)
  | _, _ => none

/-- The comparison loop of Python max with a key: walk the remaining records
keeping the current best, replacing it exactly when the new priority compares
strictly greater; a raising comparison aborts the whole call. -/
def pyKeepMaxGo : List Record → Record → Option Record
  | [], best => some best
  | r :: rs, best =>
    match pyGt (priorityOf r) (priorityOf best) with
    | none => none
    | some true => pyKeepMaxGo rs r
    | some false => pyKeepMaxGo rs best

/-- Python max(records, key=lambda r: r.get('priority_field', 0)): the first
record whose priority no later record strictly exceeds, starting from the
first record; a single record is returned without any comparison. -/
def pyKeepMax (records : List Record) : Option Record :=
  match records with
  | [] => none
  | r :: rs => pyKeepMaxGo rs r

/-- DataProcessor._resolve_duplicates. -/
def resolveDuplicates (records : List Record) (strategy : MergeStrategy)
    (rules : List (String × FieldMergeMode)) : Option Record :=
  match records with
  | [] => none
  | r :: rs =>
    match strategy with
    | MergeStrategy.first => some r
    | MergeStrategy.last => some ((r :: rs).getLastD r)
    | MergeStrategy.merge => mergeRecords (r :: rs) rules
    | MergeStrategy.keep_max => pyKeepMax (r :: rs)

/-- Python str.strip (ASCII whitespace model), computed on the character list
so that it reduces in the kernel. -/
def pyStrip (s : String) : String :=
  String.mk (((s.data.dropWhile Char.isWhitespace).reverse.dropWhile Char.isWhitespace).reverse)

/-- Python str.lower (ASCII model). -/
def pyLower (s : String) : String :=
  String.mk (s.data.map Char.toLower)

/-- The per-column normalization inside _create_conflict_key: a truthy string
is stripped and lower-cased, a falsy (empty) string becomes None, a float NaN
becomes None, everything else is taken as-is. -/
def normalizeKeyVal : PyVal → PyVal
  | PyVal.vstr s => if s = "" then PyVal.vnull else PyVal.vstr (pyLower (pyStrip s))
  | PyVal.vnan => PyVal.vnull
  | v => v

/-- DataProcessor._create_conflict_key. -/
def createConflictKey (r : Record) (columns : List String) : List PyVal :=
  columns.map (fun c => normalizeKeyVal (recordGet r c))

/-- Index the records with their original positions (Python enumerate). -/
def enumFrom (i : Nat) : List α → List (Nat × α)
  | [] => []
  | x :: xs => (i, x) :: enumFrom (i + 1) xs

abbrev GroupList := List (List PyVal × List (Nat × Record))

/-- groups[key].append((idx, record)) on an insertion-ordered dict of lists:
append to the group if the key is present, otherwise append a new group. -/
def groupInsert (gs : GroupList) (k : List PyVal) (p : Nat × Record) : GroupList :=
  match gs with
  | [] => [(k, [p])]
  | g :: rest => if g.1 = k then (g.1, g.2 ++ [p]) :: rest else g :: groupInsert rest k p

/-- The grouping loop of deduplicate_records (defaultdict keyed by conflict
key, iterated in insertion order). -/
def buildGroups (records : List Record) (cols : List String) : GroupList :=
  (enumFrom 0 records).foldl
    (fun gs p => groupInsert gs (createConflictKey p.2 cols) p) []

/-- The distinct conflict keys of the records, in first-seen order. -/
def keysOf (records : List Record) (cols : List String) : List (List PyVal) :=
  firstSeen (records.map (fun r => createConflictKey r cols))

/-- The (position, record) pairs of the group with conflict key k, in
encounter order. -/
def groupOf (records : List Record) (cols : List String) (k : List PyVal) :
    List (Nat × Record) :=
  (enumFrom 0 records).filter (fun p => decide (createConflictKey p.2 cols = k))

/-- The grouping as the spec describes it: one group per distinct conflict key
in first-seen order, each holding its (position, record) pairs in encounter
order. -/
def specGroups (records : List Record) (cols : List String) : GroupList :=
  (keysOf records cols).map (fun k => (k, groupOf records cols k))

/-- Resolution of one group inside deduplicate_records: a singleton group
passes its record through untouched, a larger group goes through
_resolve_duplicates. -/
def resolveGroup (strategy : MergeStrategy) (rules : List (String × FieldMergeMode)) :
    List PyVal × List (Nat × Record) → Option Record
  | (_, [(_, r)]) => some r
  | (_, items) => resolveDuplicates (items.map Prod.snd) strategy rules

/-- DataProcessor.deduplicate_records: group by conflict key, report the
groups of size greater than one, and resolve each group to one record (none
models an exception raised while merging). -/
def deduplicateRecords (records : List Record) (cols : List String)
    (strategy : MergeStrategy) (rules : List (String × FieldMergeMode)) :
    Option (List Record × GroupList) :=
  let gs := buildGroups records cols
  let dups := gs.filter (fun g => decide (1 < g.2.length))
  (mapOption (resolveGroup strategy rules) gs).map (fun out => (out, dups))

/-- The counter fields of ProcessingStats (data_processor.py); the wall-clock
fields are outside the embedding. -/
structure ProcessingStats where
  total_input_records : Nat := 0
  total_output_records : Nat := 0
  successful_records : Nat := 0
  skipped_records : Nat := 0
  error_records : Nat := 0
  duplicate_groups : Nat := 0
  validation_errors : Nat := 0
  database_errors : Nat := 0
deriving DecidableEq, Repr

/-- ProcessingStats.success_rate, with Python float arithmetic modelled over
the rationals. -/
def successRate (s : ProcessingStats) : ℚ :=
  if s.total_input_records = 0 then 0
  else ((s.successful_records : ℚ) / (s.total_input_records : ℚ)) * 100

/-- One slice df.iloc[i : i + c] after another, fuel-driven so that the
definition reduces structurally; the fuel is always the row count.  Python
raises ValueError for a zero step, so a zero chunk size never reaches the
loop; every statement below assumes 0 < c. -/
def chunkSplitGo (c : Nat) : Nat → List α → List (List α)
  | 0, _ => []
  | _, [] => []
  | fuel + 1, x :: xs => (x :: xs).take c :: chunkSplitGo c fuel ((x :: xs).drop c)

/-- The chunk loop of run_import: fixed-size batches in input order, the final
batch possibly smaller. -/
def chunkSplit (c : Nat) (rows : List α) : List (List α) :=
  chunkSplitGo c rows.length rows

/-- The offset step of run_import: discard offset leading rows when the
offset is positive. -/
def applyOffset (rows : List α) (offset : Nat) : List α :=
  if 0 < offset then rows.drop offset else rows

/-- The batch plan of run_import: offset first, then the chunk loop. -/
def runBatchesPlan (rows : List α) (c offset : Nat) : List (List α) :=
  chunkSplit c (applyOffset rows offset)

/-- Outcome of process_row for one row: ok none is a skip request, ok (some r)
is a mapped record, error is a raised exception. -/
abbrev RowMapper (Row : Type) := Row → Except Unit (Option Record)

/-- The row loop of BaseImporter.process_batch: a truthy (non-empty) returned
record is appended and counted successful, a falsy return (None or an empty
record) is counted skipped, and a raised exception is caught for that row
only and counted as an error. -/
def processBatchGo (mapper : RowMapper Row) :
    List Row → List Record → ProcessingStats → List Record × ProcessingStats
  | [], acc, s => (acc, s)
  | row :: rest, acc, s =>
    match mapper row with
    | Except.ok (some r) =>
      if r.isEmpty then
        processBatchGo mapper rest acc { s with skipped_records := s.skipped_records + 1 }
      else
        processBatchGo mapper rest (acc ++ [r])
          { s with successful_records := s.successful_records + 1 }
    | Except.ok none =>
      processBatchGo mapper rest acc { s with skipped_records := s.skipped_records + 1 }
    | Except.error _ =>
      processBatchGo mapper rest acc { s with error_records := s.error_records + 1 }

/-- BaseImporter.process_batch. -/
def processBatch (mapper : RowMapper Row) (rows : List Row) (s : ProcessingStats) :
    List Record × ProcessingStats :=
  processBatchGo mapper rows [] s

/-- BaseImporter.insert_batch with the base-class identity postprocess.  The
persistOk flag is the external persister's behaviour for this call (false
models bulkUpsertRecords raising).  Any exception inside the try block --
a merge type error or the persister raising -- is caught, counted in
database_errors, and turned into a zero insert count. -/
def insertBatch (persistOk : Bool) (cols : List String)
    (rules : List (String × FieldMergeMode)) (batchData : List Record)
    (s : ProcessingStats) : ProcessingStats × Nat :=
  if batchData.isEmpty then (s, 0)
  else
    match deduplicateRecords batchData cols MergeStrategy.merge rules with
    | none => ({ s with database_errors := s.database_errors + 1 }, 0)
    | some (deduped, dupInfo) =>
      let s1 := { s with duplicate_groups := s.duplicate_groups + dupInfo.length }
      if persistOk then (s1, deduped.length)
      else ({ s1 with database_errors := s1.database_errors + 1 }, 0)

/-- One iteration of the batch loop of run_import: map the rows, and if any
records came out, insert them and accumulate the insert count. -/
def batchStep (mapper : RowMapper Row) (persistOk : Bool) (cols : List String)
    (rules : List (String × FieldMergeMode)) (batch : List Row)
    (s : ProcessingStats) : ProcessingStats :=
  let pr := processBatch mapper batch s
  if pr.1.isEmpty then pr.2
  else
    let ins := insertBatch persistOk cols rules pr.1 pr.2
    { ins.1 with total_output_records := ins.1.total_output_records + ins.2 }

/-- The batch loop of run_import; the oracle gives the external persister's
success for each batch index. -/
def runLoop (mapper : RowMapper Row) (oracle : Nat → Bool) (cols : List String)
    (rules : List (String × FieldMergeMode)) :
    List (List Row) → Nat → ProcessingStats → ProcessingStats
  | [], _, s => s
  | b :: bs, i, s =>
    runLoop mapper oracle cols rules bs (i + 1)
      (batchStep mapper (oracle i) cols rules b s)

/-- The statistics state right after load_and_validate_file has recorded the
input size into a fresh ProcessingStats. -/
def freshStats (n : Nat) : ProcessingStats :=
  { total_input_records := n }

/-- BaseImporter.run_import after a successful load: record the input size,
apply the offset, and drive the chunked batch loop. -/
def runImport (mapper : RowMapper Row) (oracle : Nat → Bool) (cols : List String)
    (rules : List (String × FieldMergeMode)) (c offset : Nat) (rows : List Row) :
    ProcessingStats :=
  runLoop mapper oracle cols rules (runBatchesPlan rows c offset) 0
    (freshStats rows.length)

/-- FieldNormalizer.normalize_string: empty for None/NaN or when the stripped
string form is one of the four literal tokens (a case-sensitive membership
test in the source), otherwise the stripped string form. -/
def normalizeString (v : PyVal) : String :=
  match v with
  | PyVal.vnull => ""
  | PyVal.vnan => ""
  | v =>
    if pyStrip (pyStr v) = "" ∨ pyStrip (pyStr v) = "0" ∨ pyStrip (pyStr v) = "nan"
        ∨ pyStrip (pyStr v) = "null" then ""
    else pyStrip (pyStr v)

instance : DecidableEq GroupList := List.hasDecEq

/-! ### Basic lemmas about the helper functions -/

theorem mapOption_some_length {f : α → Option β} :
    ∀ {l : List α} {l2 : List β}, mapOption f l = some l2 → l2.length = l.length := by
  intro l
  induction l with
  | nil => intro l2 h; simp [mapOption] at h; simp [← h]
  | cons x xs ih =>
    intro l2 h
    simp only [mapOption] at h
    cases hx : f x with
    | none => rw [hx] at h; simp at h
    | some y =>
      rw [hx] at h
      cases hxs : mapOption f xs with
      | none => rw [hxs] at h; simp at h
      | some ys =>
        rw [hxs] at h
        simp at h
        simp [← h, ih hxs]

theorem firstSeenFrom_cons [DecidableEq α] (seen : List α) (x : α) (xs : List α) :
    firstSeenFrom seen (x :: xs)
      = if x ∈ seen then firstSeenFrom seen xs else x :: firstSeenFrom (x :: seen) xs := rfl

theorem mem_firstSeenFrom [DecidableEq α] {a : α} :
    ∀ {l seen : List α}, a ∈ firstSeenFrom seen l ↔ a ∉ seen ∧ a ∈ l := by
  intro l
  induction l with
  | nil => intro seen; simp [firstSeenFrom]
  | cons x xs ih =>
    intro seen
    rw [firstSeenFrom_cons]
    by_cases hx : x ∈ seen
    · rw [if_pos hx, ih]
      simp only [List.mem_cons]
      constructor
      · rintro ⟨h1, h2⟩; exact ⟨h1, Or.inr h2⟩
      · rintro ⟨h1, (rfl | h2)⟩
        · exact absurd hx h1
        · exact ⟨h1, h2⟩
    · rw [if_neg hx]
      simp only [List.mem_cons, ih, List.mem_cons]
      constructor
      · rintro (rfl | ⟨h1, h2⟩)
        · exact ⟨hx, Or.inl rfl⟩
        · exact ⟨fun hs => h1 (Or.inr hs), Or.inr h2⟩
      · rintro ⟨h1, (rfl | h2)⟩
        · exact Or.inl rfl
        · by_cases hax : a = x
          · exact Or.inl hax
          · refine Or.inr ⟨?_, h2⟩
            rintro (he | hse)
            · exact hax he
            · exact h1 hse

theorem mem_firstSeen [DecidableEq α] {a : α} {l : List α} :
    a ∈ firstSeen l ↔ a ∈ l := by
  simp [firstSeen, mem_firstSeenFrom]

theorem firstSeenFrom_nodup [DecidableEq α] :
    ∀ (l seen : List α), (firstSeenFrom seen l).Nodup := by
  intro l
  induction l with
  | nil => intro seen; simp [firstSeenFrom]
  | cons x xs ih =>
    intro seen
    rw [firstSeenFrom_cons]
    by_cases hx : x ∈ seen
    · rw [if_pos hx]; exact ih seen
    · rw [if_neg hx]
      refine List.nodup_cons.mpr ⟨fun hmem => ?_, ih (x :: seen)⟩
      have := (mem_firstSeenFrom.mp hmem).1
      exact this (List.mem_cons_self x seen)

theorem firstSeen_nodup [DecidableEq α] (l : List α) : (firstSeen l).Nodup :=
  firstSeenFrom_nodup l []

theorem firstSeenFrom_length_le [DecidableEq α] :
    ∀ (l seen : List α), (firstSeenFrom seen l).length ≤ l.length := by
  intro l
  induction l with
  | nil => intro seen; simp [firstSeenFrom]
  | cons x xs ih =>
    intro seen
    rw [firstSeenFrom_cons]
    by_cases hx : x ∈ seen
    · rw [if_pos hx]; exact Nat.le_succ_of_le (ih seen)
    · rw [if_neg hx]; simpa using Nat.succ_le_succ (ih (x :: seen))

theorem firstSeen_length_le [DecidableEq α] (l : List α) :
    (firstSeen l).length ≤ l.length :=
  firstSeenFrom_length_le l []

theorem firstSeenFrom_append_singleton [DecidableEq α] (x : α) :
    ∀ (l seen : List α),
      firstSeenFrom seen (l ++ [x])
        = firstSeenFrom seen l ++ (if x ∈ seen ∨ x ∈ l then [] else [x]) := by
  intro l
  induction l with
  | nil =>
    intro seen
    by_cases hx : x ∈ seen <;> simp [firstSeenFrom, hx]
  | cons y ys ih =>
    intro seen
    rw [List.cons_append, firstSeenFrom_cons, firstSeenFrom_cons]
    by_cases hy : y ∈ seen
    · rw [if_pos hy, if_pos hy, ih seen]
      by_cases hx : x ∈ seen ∨ x ∈ ys
      · rw [if_pos hx, if_pos]
        rcases hx with h | h
        · exact Or.inl h
        · exact Or.inr (List.mem_cons_of_mem _ h)
      · rw [if_neg hx, if_neg]
        rintro (h | h)
        · exact hx (Or.inl h)
        · rcases List.mem_cons.mp h with rfl | h
          · exact hx (Or.inl hy)
          · exact hx (Or.inr h)
    · rw [if_neg hy, if_neg hy, ih (y :: seen), List.cons_append]
      congr 1
      by_cases hx : x ∈ y :: seen ∨ x ∈ ys
      · rw [if_pos hx, if_pos]
        rcases hx with h | h
        · rcases List.mem_cons.mp h with rfl | h
          · exact Or.inr (List.mem_cons_self _ _)
          · exact Or.inl h
        · exact Or.inr (List.mem_cons_of_mem _ h)
      · rw [if_neg hx, if_neg]
        rintro (h | h)
        · exact hx (Or.inl (List.mem_cons_of_mem _ h))
        · rcases List.mem_cons.mp h with rfl | h
          · exact hx (Or.inl (List.mem_cons_self _ _))
          · exact hx (Or.inr h)

theorem firstSeen_append_singleton [DecidableEq α] (l : List α) (x : α) :
    firstSeen (l ++ [x]) = firstSeen l ++ (if x ∈ l then [] else [x]) := by
  have := firstSeenFrom_append_singleton x l []
  simpa [firstSeen] using this

theorem find?_map_update_self (f : String) (v : PyVal) :
    ∀ (r : Record), r.any (fun p => p.1 == f) = true →
      (r.map (fun p => if p.1 == f then (f, v) else p)).find? (fun p => p.1 == f)
        = some (f, v) := by
  intro r
  induction r with
  | nil => intro h; simp at h
  | cons p ps ih =>
    intro h
    cases hp : (p.1 == f) with
    | true =>
      simp only [List.map_cons, hp, if_true, List.find?_cons]
      simp
    | false =>
      simp only [List.map_cons, hp, Bool.false_eq_true, if_false, List.find?_cons, hp]
      apply ih
      simp only [List.any_cons, hp, Bool.false_or] at h
      exact h

theorem find?_map_update_ne (f g : String) (v : PyVal) (hg : g ≠ f) :
    ∀ (r : Record),
      (r.map (fun p => if p.1 == f then (f, v) else p)).find? (fun p => p.1 == g)
        = r.find? (fun p => p.1 == g) := by
  intro r
  induction r with
  | nil => rfl
  | cons p ps ih =>
    rw [List.map_cons]
    by_cases hp : (p.1 == f) = true
    · have hp1 : p.1 = f := by simpa using hp
      have hfg : (f == g) = false := by
        simp only [beq_eq_false_iff_ne, ne_eq]
        exact fun h => hg h.symm
      have hpg : (p.1 == g) = false := by rw [hp1]; exact hfg
      rw [if_pos hp]
      rw [List.find?_cons_of_neg (p := fun q : String × PyVal => q.1 == g) _ (by simp [hfg]),
        List.find?_cons_of_neg (p := fun q : String × PyVal => q.1 == g) _ (by simp [hpg])]
      exact ih
    · rw [if_neg hp]
      by_cases hpg : (p.1 == g) = true
      · rw [List.find?_cons_of_pos (p := fun q : String × PyVal => q.1 == g) _ hpg,
          List.find?_cons_of_pos (p := fun q : String × PyVal => q.1 == g) _ hpg]
      · rw [List.find?_cons_of_neg (p := fun q : String × PyVal => q.1 == g) _ hpg,
          List.find?_cons_of_neg (p := fun q : String × PyVal => q.1 == g) _ hpg]
        exact ih

theorem recordGet_recordSet_self (r : Record) (f : String) (v : PyVal) :
    recordGet (recordSet r f v) f = v := by
  unfold recordSet
  by_cases h : r.any (fun p => p.1 == f) = true
  · rw [if_pos h]
    unfold recordGet
    rw [find?_map_update_self f v r h]
  · rw [if_neg h]
    unfold recordGet
    have hnone : r.find? (fun p => p.1 == f) = none := by
      rw [List.find?_eq_none]
      intro p hp hpf
      exact h (List.any_eq_true.mpr ⟨p, hp, hpf⟩)
    rw [List.find?_append, hnone]
    simp

theorem recordGet_recordSet_ne (r : Record) (f g : String) (v : PyVal) (hg : g ≠ f) :
    recordGet (recordSet r f v) g = recordGet r g := by
  unfold recordSet
  by_cases h : r.any (fun p => p.1 == f) = true
  · rw [if_pos h]
    unfold recordGet
    rw [find?_map_update_ne f g v hg r]
  · rw [if_neg h]
    unfold recordGet
    rw [List.find?_append]
    cases hr : r.find? (fun p => p.1 == g) with
    | some p => simp
    | none =>
      have hfg : (f == g) = false := by
        simp only [beq_eq_false_iff_ne, ne_eq]
        exact fun h => hg h.symm
      simp [hfg]

theorem mergeFold_none (V : String → Option PyVal) :
    ∀ (fs : List String),
      fs.foldl (fun acc f => acc.bind (fun r => (V f).map (fun v => recordSet r f v))) none
        = none := by
  intro fs
  induction fs with
  | nil => rfl
  | cons f0 fs ih => simpa [Option.bind] using ih

theorem mergeFold_get (V : String → Option PyVal) :
    ∀ (fs : List String) (r0 m : Record),
      fs.foldl (fun acc f => acc.bind (fun r => (V f).map (fun v => recordSet r f v)))
          (some r0) = some m →
      ∀ f, (f ∈ fs → ∃ v, V f = some v ∧ recordGet m f = v)
        ∧ (f ∉ fs → recordGet m f = recordGet r0 f) := by
  intro fs
  induction fs with
  | nil =>
    intro r0 m h f
    simp only [List.foldl_nil, Option.some_inj] at h
    subst h
    exact ⟨fun hf => absurd hf (List.not_mem_nil f), fun _ => rfl⟩
  | cons f0 fs ih =>
    intro r0 m h f
    rw [List.foldl_cons] at h
    cases hv : V f0 with
    | none =>
      rw [show (some r0).bind (fun r => (V f0).map (fun v => recordSet r f0 v)) = none by
        simp [hv]] at h
      rw [mergeFold_none V fs] at h
      exact absurd h (by simp)
    | some v0 =>
      rw [show (some r0).bind (fun r => (V f0).map (fun v => recordSet r f0 v))
          = some (recordSet r0 f0 v0) by simp [hv]] at h
      have ihm := ih (recordSet r0 f0 v0) m h
      constructor
      · intro hf
        rcases List.mem_cons.mp hf with rfl | hf2
        · by_cases hmem : f ∈ fs
          · exact (ihm f).1 hmem
          · refine ⟨v0, hv, ?_⟩
            rw [(ihm f).2 hmem, recordGet_recordSet_self]
        · exact (ihm f).1 hf2
      · intro hf
        have hne : f ≠ f0 := fun he => hf (he ▸ List.mem_cons_self f0 fs)
        have hnfs : f ∉ fs := fun hin => hf (List.mem_cons_of_mem _ hin)
        rw [(ihm f).2 hnfs, recordGet_recordSet_ne _ _ _ _ hne]

theorem filter_isEmpty_eq_all (values : List PyVal) :
    (values.filter (fun v => !(isNullOrNaN v))).isEmpty = values.all isNullOrNaN := by
  cases h : values.all isNullOrNaN with
  | false =>
    rw [List.all_eq_false] at h
    obtain ⟨x, hx, hnx⟩ := h
    have hmem : x ∈ values.filter (fun v => !(isNullOrNaN v)) :=
      List.mem_filter.mpr ⟨hx, by simp [hnx]⟩
    cases hf : (values.filter (fun v => !(isNullOrNaN v))).isEmpty with
    | false => rfl
    | true =>
      rw [List.isEmpty_iff] at hf
      rw [hf] at hmem
      exact absurd hmem (List.not_mem_nil x)
  | true =>
    rw [List.all_eq_true] at h
    have hnil : values.filter (fun v => !(isNullOrNaN v)) = [] :=
      List.filter_eq_nil_iff.mpr (fun a ha => by simp [h a ha])
    simp [hnil]

theorem applyMergeMode_eq_spec (values : List PyVal) (mode : FieldMergeMode) :
    applyMergeMode values mode = applyMergeModeSpec values mode := by
  simp only [applyMergeMode, applyMergeModeSpec]
  rw [filter_isEmpty_eq_all]

theorem recordGet_eq_vnull_of_not_key (r : Record) (f : String)
    (h : f ∉ r.map Prod.fst) : recordGet r f = PyVal.vnull := by
  unfold recordGet
  rw [show r.find? (fun p => p.1 == f) = none by
    rw [List.find?_eq_none]
    intro p hp hpf
    exact h (List.mem_map.mpr ⟨p, hp, by simpa using hpf⟩)]

theorem recordGet_eq_vnull_of_not_allFields (records : List Record) (rec : Record)
    (f : String) (hb : rec ∈ records) (h : f ∉ allFields records) :
    recordGet rec f = PyVal.vnull := by
  apply recordGet_eq_vnull_of_not_key
  intro hmem
  apply h
  rw [allFields, mem_firstSeen]
  exact List.mem_flatten.mpr ⟨rec.map Prod.fst, List.mem_map.mpr ⟨rec, hb, rfl⟩, hmem⟩

theorem applyMergeModeSpec_all_null (values : List PyVal) (mode : FieldMergeMode)
    (h : ∀ v ∈ values, v = PyVal.vnull) :
    applyMergeModeSpec values mode = some PyVal.vnull := by
  unfold applyMergeModeSpec
  rw [if_pos]
  rw [List.all_eq_true]
  intro v hv
  rw [h v hv]
  rfl

/-- C1: for every duplicate group resolved under strategy merge and every
field, the resolved value is the spec-side merge-mode computation -- values
gathered in original order, None/NaN dropped before sum/max/min/avg/concat,
first/last picking the first/last non-null raw value, an all-null/NaN field
resolving to null -- and a field without an explicit rule gets mode last. -/
theorem merge_field_resolution (records : List Record)
    (rules : List (String × FieldMergeMode)) (m : Record)
    (h : resolveDuplicates records MergeStrategy.merge rules = some m) :
    (∀ f, ∃ v,
        applyMergeModeSpec (records.map (fun r => recordGet r f)) (modeOf rules f) = some v
          ∧ recordGet m f = v)
    ∧ (∀ f, (∀ p ∈ rules, p.1 ≠ f) → modeOf rules f = FieldMergeMode.modeLast) := by
  constructor
  · intro f
    cases records with
    | nil => simp [resolveDuplicates] at h
    | cons r rs =>
      have hmr : mergeRecords (r :: rs) rules = some m := h
      rw [mergeRecords] at hmr
      cases hlast : (r :: rs).getLast? with
      | none => exact absurd (List.getLast?_eq_none_iff.mp hlast) (List.cons_ne_nil r rs)
      | some base =>
        simp only [hlast] at hmr
        have hg := mergeFold_get
          (fun f => applyMergeMode ((r :: rs).map (fun rec => recordGet rec f)) (modeOf rules f))
          (allFields (r :: rs)) base m hmr f
        by_cases hf : f ∈ allFields (r :: rs)
        · obtain ⟨v, hv, hgv⟩ := hg.1 hf
          exact ⟨v, by rw [← applyMergeMode_eq_spec]; exact hv, hgv⟩
        · have hbase : base ∈ r :: rs := List.mem_of_mem_getLast? (by simp [hlast])
          have hnull : ∀ v ∈ (r :: rs).map (fun rec => recordGet rec f), v = PyVal.vnull := by
            intro v hv
            obtain ⟨rec, hrec, hre⟩ := List.mem_map.mp hv
            rw [← hre]
            exact recordGet_eq_vnull_of_not_allFields _ rec f hrec hf
          refine ⟨PyVal.vnull, applyMergeModeSpec_all_null _ _ hnull, ?_⟩
          rw [hg.2 hf]
          exact recordGet_eq_vnull_of_not_allFields _ base f hbase hf
  · intro f hf
    unfold modeOf
    rw [show rules.find? (fun p => p.1 == f) = none by
      rw [List.find?_eq_none]
      intro p hp hpf
      exact hf p hp (by simpa using hpf)]

/-- Witness for C1: the two-record group q=3, q=5 with rule q=max resolves q
to 5, matching the spec-side merge-mode computation. -/
theorem merge_field_resolution_instance :
    ∃ v, applyMergeModeSpec
        ([[("q", PyVal.vnum 3)], [("q", PyVal.vnum 5)]].map (fun r => recordGet r "q"))
        (modeOf [("q", FieldMergeMode.modeMax)] "q") = some v
      ∧ recordGet [("q", PyVal.vnum 5)] "q" = v :=
  (merge_field_resolution [[("q", PyVal.vnum 3)], [("q", PyVal.vnum 5)]]
    [("q", FieldMergeMode.modeMax)] [("q", PyVal.vnum 5)] (by decide)).1 "q"

/-- C3 counterexample: the conflict key does not coalesce a whitespace-only
string like an empty one -- the source tests string truthiness before
stripping, so an empty string becomes None while a whitespace-only string
becomes the empty string, and the two keys differ. -/
theorem conflictKey_whitespace_not_coalesced :
    createConflictKey [("f", PyVal.vstr " ")] ["f"] = [PyVal.vstr ""]
    ∧ createConflictKey [("f", PyVal.vstr "")] ["f"] = [PyVal.vnull]
    ∧ createConflictKey [("f", PyVal.vstr " ")] ["f"]
        ≠ createConflictKey [("f", PyVal.vstr "")] ["f"] := by
  decide

/-- C3 (amended): the conflict key is the per-column tuple of normalized
values -- a non-empty string is stripped and lower-cased (a whitespace-only
string becomes the empty string, not null), the empty string and NaN coalesce
to null, other values pass through -- and two records whose key columns agree
after this normalization get equal keys. -/
theorem conflictKey_normalized_equality (r1 r2 : Record) (cols : List String)
    (h : ∀ c ∈ cols, normalizeKeyVal (recordGet r1 c) = normalizeKeyVal (recordGet r2 c)) :
    createConflictKey r1 cols = createConflictKey r2 cols
    ∧ createConflictKey r1 cols = cols.map (fun c => normalizeKeyVal (recordGet r1 c))
    ∧ normalizeKeyVal (PyVal.vstr "") = PyVal.vnull
    ∧ normalizeKeyVal PyVal.vnan = PyVal.vnull
    ∧ (∀ s, s ≠ "" → normalizeKeyVal (PyVal.vstr s) = PyVal.vstr (pyLower (pyStrip s)))
    ∧ (∀ q, normalizeKeyVal (PyVal.vnum q) = PyVal.vnum q)
    ∧ normalizeKeyVal PyVal.vnull = PyVal.vnull := by
  refine ⟨?_, rfl, by simp [normalizeKeyVal], rfl, ?_, fun q => rfl, rfl⟩
  · unfold createConflictKey
    exact List.map_congr_left h
  · intro s hs
    simp [normalizeKeyVal, hs]

/-- Witness for C3 (amended): two records differing only in case and
surrounding whitespace on the key column get the same conflict key. -/
theorem conflictKey_normalized_equality_instance :
    createConflictKey [("f", PyVal.vstr "AB")] ["f"]
      = createConflictKey [("f", PyVal.vstr " ab ")] ["f"] :=
  (conflictKey_normalized_equality [("f", PyVal.vstr "AB")] [("f", PyVal.vstr " ab ")]
    ["f"] (by decide)).1

/-- C8 as amended: normalize_string returns the empty string for None/NaN and
for inputs whose stripped string form is one of the four literal tokens under
a case-sensitive comparison, and the stripped string form otherwise. -/
def normalizeStringSpec (v : PyVal) : String :=
  if isNullOrNaN v then ""
  else if pyStrip (pyStr v) ∈ ["", "0", "nan", "null"] then ""
  else pyStrip (pyStr v)

/-- C8 counterexample: the token comparison in normalize_string is
case-sensitive, so the input NULL is returned as-is instead of mapping to the
empty string as the claimed case-insensitive comparison would require. -/
theorem normalizeString_case_sensitive_null :
    normalizeString (PyVal.vstr "NULL") = "NULL"
    ∧ normalizeString (PyVal.vstr "NULL") ≠ ""
    ∧ normalizeString (PyVal.vstr "null") = "" := by
  decide

/-- C8 (amended): normalize_string agrees everywhere with the amended
contract whose token comparison is case-sensitive. -/
theorem normalizeString_eq_spec (v : PyVal) :
    normalizeString v = normalizeStringSpec v := by
  cases v with
  | vnull => rfl
  | vnan => rfl
  | vnum q =>
    simp only [normalizeString, normalizeStringSpec, isNullOrNaN, Bool.false_eq_true,
      if_false, List.mem_cons, List.not_mem_nil, or_false]
  | vstr s =>
    simp only [normalizeString, normalizeStringSpec, isNullOrNaN, Bool.false_eq_true,
      if_false, List.mem_cons, List.not_mem_nil, or_false]

/-- C9: success_rate is the percentage successful/total*100 whenever the
total input count is nonzero, and is exactly zero when the total is zero, the
guard making the dividing branch unreachable at a zero denominator. -/
theorem success_rate_cases (s : ProcessingStats) :
    (s.total_input_records = 0 → successRate s = 0)
    ∧ (s.total_input_records ≠ 0 →
        successRate s = ((s.successful_records : ℚ) / (s.total_input_records : ℚ)) * 100
          ∧ ((s.total_input_records : ℚ) ≠ 0)) := by
  constructor
  · intro h
    simp [successRate, h]
  · intro h
    refine ⟨by simp [successRate, h], ?_⟩
    exact_mod_cast h

/-- Witness for C9: zero input records give rate zero and two input records
with one success give the ratio one half times one hundred. -/
theorem success_rate_cases_instance :
    successRate ⟨0, 0, 0, 0, 0, 0, 0, 0⟩ = 0
    ∧ successRate ⟨2, 0, 1, 0, 0, 0, 0, 0⟩ = (((1 : ℕ) : ℚ) / ((2 : ℕ) : ℚ)) * 100 :=
  ⟨(success_rate_cases ⟨0, 0, 0, 0, 0, 0, 0, 0⟩).1 rfl,
    ((success_rate_cases ⟨2, 0, 1, 0, 0, 0, 0, 0⟩).2 (by decide)).1⟩

/-! ### Chunk loop lemmas -/

theorem chunkSplitGo_nil (c : Nat) : ∀ fuel, chunkSplitGo c fuel ([] : List α) = [] := by
  intro fuel
  cases fuel <;> rfl

theorem chunkSplitGo_flatten (c : Nat) (hc : 0 < c) :
    ∀ (fuel : Nat) (rows : List α), rows.length ≤ fuel →
      (chunkSplitGo c fuel rows).flatten = rows := by
  intro fuel
  induction fuel with
  | zero =>
    intro rows h
    rw [List.length_eq_zero.mp (Nat.le_zero.mp h)]
    rfl
  | succ n ih =>
    intro rows h
    cases rows with
    | nil => rfl
    | cons x xs =>
      show ((x :: xs).take c :: chunkSplitGo c n ((x :: xs).drop c)).flatten = x :: xs
      rw [List.flatten_cons, ih ((x :: xs).drop c) ?hlen, List.take_append_drop]
      case hlen =>
        rw [List.length_drop]
        simp only [List.length_cons] at h ⊢
        omega

theorem chunkSplitGo_length (c : Nat) (hc : 0 < c) :
    ∀ (fuel : Nat) (rows : List α), rows.length ≤ fuel →
      (chunkSplitGo c fuel rows).length = (rows.length + c - 1) / c := by
  intro fuel
  induction fuel with
  | zero =>
    intro rows h
    rw [List.length_eq_zero.mp (Nat.le_zero.mp h), chunkSplitGo_nil]
    simp only [List.length_nil, Nat.zero_add]
    exact (Nat.div_eq_of_lt (by omega)).symm
  | succ n ih =>
    intro rows h
    cases rows with
    | nil =>
      rw [chunkSplitGo_nil]
      simp only [List.length_nil, Nat.zero_add]
      exact (Nat.div_eq_of_lt (by omega)).symm
    | cons x xs =>
      show (((x :: xs).take c :: chunkSplitGo c n ((x :: xs).drop c))).length
          = ((x :: xs).length + c - 1) / c
      rw [List.length_cons, ih ((x :: xs).drop c) ?hlen]
      case hlen =>
        rw [List.length_drop]
        simp only [List.length_cons] at h ⊢
        omega
      rw [List.length_drop]
      have hL1 : 1 ≤ (x :: xs).length := by simp
      rcases Nat.lt_or_ge c (x :: xs).length with hgt | hle
      · have e1 : (x :: xs).length - c + c - 1 = ((x :: xs).length - 1 - c) + c := by omega
        have e2 : (x :: xs).length + c - 1 = ((x :: xs).length - 1) + c := by omega
        rw [e1, e2, Nat.add_div_right _ hc, Nat.add_div_right _ hc]
        have e6 : (x :: xs).length - 1 = ((x :: xs).length - 1 - c) + c := by omega
        have e5 : ((x :: xs).length - 1) / c = ((x :: xs).length - 1 - c) / c + 1 := by
          conv_lhs => rw [e6]
          rw [Nat.add_div_right _ hc]
        omega
      · have e1 : (x :: xs).length - c = 0 := by omega
        rw [e1]
        have e2 : (0 + c - 1) / c = 0 := Nat.div_eq_of_lt (by omega)
        have e3 : ((x :: xs).length + c - 1) / c = 1 := by
          have e4 : (x :: xs).length + c - 1 = ((x :: xs).length - 1) + c := by omega
          rw [e4, Nat.add_div_right _ hc, Nat.div_eq_of_lt (by omega)]
        rw [e2, e3]

theorem chunkSplitGo_sizes (c : Nat) (hc : 0 < c) :
    ∀ (fuel : Nat) (rows : List α), rows.length ≤ fuel →
      ∀ b ∈ chunkSplitGo c fuel rows, b.length ≤ c ∧ b ≠ [] := by
  intro fuel
  induction fuel with
  | zero =>
    intro rows h b hb
    rw [List.length_eq_zero.mp (Nat.le_zero.mp h), chunkSplitGo_nil] at hb
    exact absurd hb (List.not_mem_nil b)
  | succ n ih =>
    intro rows h b hb
    cases rows with
    | nil =>
      rw [chunkSplitGo_nil] at hb
      exact absurd hb (List.not_mem_nil b)
    | cons x xs =>
      rcases List.mem_cons.mp hb with rfl | hb2
      · constructor
        · rw [List.length_take]
          exact min_le_left c (x :: xs).length
        · cases c with
          | zero => exact absurd hc (by omega)
          | succ k => simp [List.take_cons]
      · refine ih ((x :: xs).drop c) ?_ b hb2
        rw [List.length_drop]
        simp only [List.length_cons] at h ⊢
        omega

theorem chunkSplitGo_dropLast (c : Nat) (hc : 0 < c) :
    ∀ (fuel : Nat) (rows : List α), rows.length ≤ fuel →
      ∀ b ∈ (chunkSplitGo c fuel rows).dropLast, b.length = c := by
  intro fuel
  induction fuel with
  | zero =>
    intro rows h b hb
    rw [List.length_eq_zero.mp (Nat.le_zero.mp h), chunkSplitGo_nil] at hb
    exact absurd hb (List.not_mem_nil b)
  | succ n ih =>
    intro rows h b hb
    cases rows with
    | nil =>
      rw [chunkSplitGo_nil] at hb
      exact absurd hb (List.not_mem_nil b)
    | cons x xs =>
      have hstep : chunkSplitGo c (n + 1) (x :: xs)
          = (x :: xs).take c :: chunkSplitGo c n ((x :: xs).drop c) := rfl
      rw [hstep] at hb
      cases hrest : chunkSplitGo c n ((x :: xs).drop c) with
      | nil =>
        rw [hrest] at hb
        exact absurd hb (by simp)
      | cons r rs =>
        rw [hrest, List.dropLast_cons₂] at hb
        have hlen : ((x :: xs).drop c).length ≤ n := by
          rw [List.length_drop]
          simp only [List.length_cons] at h ⊢
          omega
        rcases List.mem_cons.mp hb with rfl | hb2
        · have hdrop : (x :: xs).drop c ≠ [] := by
            intro hnil
            rw [hnil, chunkSplitGo_nil] at hrest
            exact absurd hrest.symm (List.cons_ne_nil r rs)
          rw [List.length_take]
          have : c < (x :: xs).length := by
            by_contra hcon
            exact hdrop (List.drop_eq_nil_of_le (by omega))
          omega
        · rw [← hrest] at hb2
          exact ih ((x :: xs).drop c) hlen b hb2

set_option maxRecDepth 100000 in
/-- C4: after the offset discards leading rows, the chunk loop partitions the
remaining N rows, in input order, into ceil(N / c) batches of exactly c rows
except a possibly smaller non-empty final batch; in particular 1250 rows with
chunk size 500 give batches of sizes 500, 500, 250 and with offset 1000 a
single batch of 250. -/
theorem chunk_loop_partition (rows : List α) (c off : Nat) (hc : 0 < c) :
    (runBatchesPlan rows c off).length = ((applyOffset rows off).length + c - 1) / c
    ∧ (runBatchesPlan rows c off).flatten = applyOffset rows off
    ∧ (∀ b ∈ (runBatchesPlan rows c off).dropLast, b.length = c)
    ∧ (∀ b ∈ runBatchesPlan rows c off, b.length ≤ c ∧ b ≠ [])
    ∧ (0 < off → applyOffset rows off = rows.drop off)
    ∧ (runBatchesPlan (List.replicate 1250 (0 : Nat)) 500 0).map List.length = [500, 500, 250]
    ∧ (runBatchesPlan (List.replicate 1250 (0 : Nat)) 500 1000).map List.length = [250] :=
  ⟨chunkSplitGo_length c hc _ _ le_rfl, chunkSplitGo_flatten c hc _ _ le_rfl,
    chunkSplitGo_dropLast c hc _ _ le_rfl, chunkSplitGo_sizes c hc _ _ le_rfl,
    fun hoff => by simp [applyOffset, hoff], by decide, by decide⟩

set_option maxRecDepth 100000 in
/-- Witness for C4: the 1250-row, chunk-size-500 run processes batches of
sizes 500, 500, 250, and with offset 1000 a single batch of 250. -/
theorem chunk_loop_partition_instance :
    (runBatchesPlan (List.replicate 1250 (0 : Nat)) 500 0).map List.length = [500, 500, 250]
    ∧ (runBatchesPlan (List.replicate 1250 (0 : Nat)) 500 1000).map List.length = [250] :=
  ⟨(chunk_loop_partition (List.replicate 1250 (0 : Nat)) 500 0 (by decide)).2.2.2.2.2.1,
    (chunk_loop_partition (List.replicate 1250 (0 : Nat)) 500 1000 (by decide)).2.2.2.2.2.2⟩

/-! ### Orchestrator lemmas -/

theorem processBatchGo_preserved (mapper : RowMapper Row) :
    ∀ (rows : List Row) (acc : List Record) (s : ProcessingStats),
      (processBatchGo mapper rows acc s).2.total_input_records = s.total_input_records
      ∧ (processBatchGo mapper rows acc s).2.total_output_records = s.total_output_records
      ∧ (processBatchGo mapper rows acc s).2.database_errors = s.database_errors
      ∧ (processBatchGo mapper rows acc s).2.duplicate_groups = s.duplicate_groups := by
  intro rows
  induction rows with
  | nil => intro acc s; exact ⟨rfl, rfl, rfl, rfl⟩
  | cons row rest ih =>
    intro acc s
    show (processBatchGo mapper (row :: rest) acc s).2.total_input_records = _ ∧ _
    cases hm : mapper row with
    | ok o =>
      cases o with
      | some r =>
        by_cases hr : r.isEmpty = true
        · simp only [processBatchGo, hm, hr, if_true]
          exact ih acc _
        · simp only [processBatchGo, hm, hr, Bool.false_eq_true, if_false]
          exact ih (acc ++ [r]) _
      | none =>
        simp only [processBatchGo, hm]
        exact ih acc _
    | error e =>
      simp only [processBatchGo, hm]
      exact ih acc _

theorem processBatchGo_sum (mapper : RowMapper Row) :
    ∀ (rows : List Row) (acc : List Record) (s : ProcessingStats),
      (processBatchGo mapper rows acc s).2.successful_records
        + (processBatchGo mapper rows acc s).2.skipped_records
        + (processBatchGo mapper rows acc s).2.error_records
      = s.successful_records + s.skipped_records + s.error_records + rows.length := by
  intro rows
  induction rows with
  | nil => intro acc s; simp [processBatchGo]
  | cons row rest ih =>
    intro acc s
    cases hm : mapper row with
    | ok o =>
      cases o with
      | some r =>
        by_cases hr : r.isEmpty = true
        · simp only [processBatchGo, hm, hr, if_true]
          rw [ih acc _]
          simp only [List.length_cons]
          omega
        · simp only [processBatchGo, hm, hr, Bool.false_eq_true, if_false]
          rw [ih (acc ++ [r]) _]
          simp only [List.length_cons]
          omega
      | none =>
        simp only [processBatchGo, hm]
        rw [ih acc _]
        simp only [List.length_cons]
        omega
    | error e =>
      simp only [processBatchGo, hm]
      rw [ih acc _]
      simp only [List.length_cons]
      omega

theorem insertBatch_preserved (ok : Bool) (cols : List String)
    (rules : List (String × FieldMergeMode)) (data : List Record) (s : ProcessingStats) :
    (insertBatch ok cols rules data s).1.successful_records = s.successful_records
    ∧ (insertBatch ok cols rules data s).1.skipped_records = s.skipped_records
    ∧ (insertBatch ok cols rules data s).1.error_records = s.error_records
    ∧ (insertBatch ok cols rules data s).1.total_input_records = s.total_input_records
    ∧ (insertBatch ok cols rules data s).1.total_output_records = s.total_output_records := by
  unfold insertBatch
  split
  · exact ⟨rfl, rfl, rfl, rfl, rfl⟩
  · split
    · exact ⟨rfl, rfl, rfl, rfl, rfl⟩
    · split
      · exact ⟨rfl, rfl, rfl, rfl, rfl⟩
      · exact ⟨rfl, rfl, rfl, rfl, rfl⟩

theorem batchStep_sum (mapper : RowMapper Row) (ok : Bool) (cols : List String)
    (rules : List (String × FieldMergeMode)) (b : List Row) (s : ProcessingStats) :
    (batchStep mapper ok cols rules b s).successful_records
      + (batchStep mapper ok cols rules b s).skipped_records
      + (batchStep mapper ok cols rules b s).error_records
    = s.successful_records + s.skipped_records + s.error_records + b.length
    ∧ (batchStep mapper ok cols rules b s).total_input_records = s.total_input_records := by
  unfold batchStep
  by_cases hemp : (processBatch mapper b s).1.isEmpty = true
  · simp only [if_pos hemp]
    exact ⟨processBatchGo_sum mapper b [] s, (processBatchGo_preserved mapper b [] s).1⟩
  · simp only [if_neg hemp]
    have hins := insertBatch_preserved ok cols rules
      (processBatch mapper b s).1 (processBatch mapper b s).2
    have hsum := processBatchGo_sum mapper b [] s
    have hpres := processBatchGo_preserved mapper b [] s
    constructor
    · show (insertBatch ok cols rules (processBatch mapper b s).1
            (processBatch mapper b s).2).1.successful_records
          + (insertBatch ok cols rules (processBatch mapper b s).1
            (processBatch mapper b s).2).1.skipped_records
          + (insertBatch ok cols rules (processBatch mapper b s).1
            (processBatch mapper b s).2).1.error_records = _
      rw [hins.1, hins.2.1, hins.2.2.1]
      exact hsum
    · show (insertBatch ok cols rules (processBatch mapper b s).1
            (processBatch mapper b s).2).1.total_input_records = _
      rw [hins.2.2.2.1]
      exact hpres.1

theorem runLoop_append (mapper : RowMapper Row) (oracle : Nat → Bool) (cols : List String)
    (rules : List (String × FieldMergeMode)) :
    ∀ (bs1 bs2 : List (List Row)) (i : Nat) (s : ProcessingStats),
      runLoop mapper oracle cols rules (bs1 ++ bs2) i s
        = runLoop mapper oracle cols rules bs2 (i + bs1.length)
            (runLoop mapper oracle cols rules bs1 i s) := by
  intro bs1
  induction bs1 with
  | nil => intro bs2 i s; simp [runLoop]
  | cons b bs ih =>
    intro bs2 i s
    show runLoop mapper oracle cols rules (bs ++ bs2) (i + 1) _ = _
    rw [ih bs2 (i + 1) _]
    congr 1
    simp only [List.length_cons]
    omega

theorem runLoop_sum (mapper : RowMapper Row) (oracle : Nat → Bool) (cols : List String)
    (rules : List (String × FieldMergeMode)) :
    ∀ (bs : List (List Row)) (i : Nat) (s : ProcessingStats),
      (runLoop mapper oracle cols rules bs i s).successful_records
        + (runLoop mapper oracle cols rules bs i s).skipped_records
        + (runLoop mapper oracle cols rules bs i s).error_records
      = s.successful_records + s.skipped_records + s.error_records
          + (bs.map List.length).sum
      ∧ (runLoop mapper oracle cols rules bs i s).total_input_records
          = s.total_input_records := by
  intro bs
  induction bs with
  | nil => intro i s; simp [runLoop]
  | cons b rest ih =>
    intro i s
    simp only [runLoop]
    have hstep := batchStep_sum mapper (oracle i) cols rules b s
    have hrest := ih (i + 1) (batchStep mapper (oracle i) cols rules b s)
    constructor
    · rw [hrest.1, hstep.1]
      simp only [List.map_cons, List.sum_cons]
      omega
    · rw [hrest.2, hstep.2]

theorem chunkSplitGo_sum_le (c : Nat) :
    ∀ (fuel : Nat) (rows : List α),
      ((chunkSplitGo c fuel rows).map List.length).sum ≤ rows.length := by
  intro fuel
  induction fuel with
  | zero => intro rows; simp [chunkSplitGo]
  | succ n ih =>
    intro rows
    cases rows with
    | nil => simp [chunkSplitGo]
    | cons x xs =>
      show (((x :: xs).take c).length + ((chunkSplitGo c n ((x :: xs).drop c)).map List.length).sum)
          ≤ (x :: xs).length
      have h1 := ih ((x :: xs).drop c)
      rw [List.length_drop] at h1
      rw [List.length_take]
      omega

/-- C7: once the input size is recorded into a fresh statistics instance, at
every batch boundary of the run (and at its end) the counters satisfy
successful + skipped + error less-or-equal total input; each processed row
moves exactly one of the three counters by one and leaves the recorded input
size unchanged, and offset-discarded rows move none. -/
theorem stats_counter_invariant (mapper : RowMapper Row) (oracle : Nat → Bool)
    (cols : List String) (rules : List (String × FieldMergeMode)) (c off : Nat)
    (rows : List Row) :
    (∀ n : Nat,
      (runLoop mapper oracle cols rules ((runBatchesPlan rows c off).take n) 0
          (freshStats rows.length)).successful_records
        + (runLoop mapper oracle cols rules ((runBatchesPlan rows c off).take n) 0
            (freshStats rows.length)).skipped_records
        + (runLoop mapper oracle cols rules ((runBatchesPlan rows c off).take n) 0
            (freshStats rows.length)).error_records
      ≤ (runLoop mapper oracle cols rules ((runBatchesPlan rows c off).take n) 0
          (freshStats rows.length)).total_input_records)
    ∧ ((runImport mapper oracle cols rules c off rows).successful_records
        + (runImport mapper oracle cols rules c off rows).skipped_records
        + (runImport mapper oracle cols rules c off rows).error_records
      ≤ (runImport mapper oracle cols rules c off rows).total_input_records)
    ∧ (∀ (rows2 : List Row) (s : ProcessingStats),
        (processBatch mapper rows2 s).2.successful_records
          + (processBatch mapper rows2 s).2.skipped_records
          + (processBatch mapper rows2 s).2.error_records
          = s.successful_records + s.skipped_records + s.error_records + rows2.length
        ∧ (processBatch mapper rows2 s).2.total_input_records = s.total_input_records) := by
  have hbound : ∀ (bs : List (List Row)) (n : Nat),
      bs = runBatchesPlan rows c off → ((bs.take n).map List.length).sum ≤ rows.length := by
    intro bs n hbs
    have h1 : ((bs.take n).map List.length).sum ≤ (bs.map List.length).sum := by
      rw [List.map_take]
      conv_rhs => rw [← List.take_append_drop n (bs.map List.length)]
      rw [List.sum_append]
      omega
    have h2 : (bs.map List.length).sum ≤ (applyOffset rows off).length := by
      rw [hbs]
      exact chunkSplitGo_sum_le c _ _
    have h3 : (applyOffset rows off).length ≤ rows.length := by
      unfold applyOffset
      split
      · rw [List.length_drop]; omega
      · exact le_rfl
    omega
  have hloop : ∀ (bs : List (List Row)),
      (runLoop mapper oracle cols rules bs 0 (freshStats rows.length)).successful_records
        + (runLoop mapper oracle cols rules bs 0 (freshStats rows.length)).skipped_records
        + (runLoop mapper oracle cols rules bs 0 (freshStats rows.length)).error_records
        = (bs.map List.length).sum
      ∧ (runLoop mapper oracle cols rules bs 0 (freshStats rows.length)).total_input_records
        = rows.length := by
    intro bs
    have h := runLoop_sum mapper oracle cols rules bs 0 (freshStats rows.length)
    constructor
    · rw [h.1]; simp [freshStats]
    · rw [h.2]; simp [freshStats]
  refine ⟨?_, ?_, ?_⟩
  · intro n
    have h := hloop ((runBatchesPlan rows c off).take n)
    rw [h.1, h.2]
    exact hbound _ n rfl
  · have h := hloop (runBatchesPlan rows c off)
    simp only [runImport]
    rw [h.1, h.2]
    have := hbound (runBatchesPlan rows c off) (runBatchesPlan rows c off).length rfl
    rw [List.take_length] at this
    exact this
  · intro rows2 s
    exact ⟨processBatchGo_sum mapper rows2 [] s, (processBatchGo_preserved mapper rows2 [] s).1⟩

/-- C5: when the persister fails on one batch, that batch adds exactly one to
database_errors and zero to total_output_records, the failure is absorbed
inside the batch step, and the run continues with the remaining batches from
the post-failure state; a batch whose persist succeeds contributes exactly
the length of the deduplicated list handed to the persister. -/
theorem batch_failure_isolation (mapper : RowMapper Row) (oracle : Nat → Bool)
    (cols : List String) (rules : List (String × FieldMergeMode))
    (bs1 bs2 : List (List Row)) (b : List Row) (s : ProcessingStats)
    (deduped : List Record) (dupInfo : GroupList)
    (hfail : oracle bs1.length = false)
    (hrecs : (processBatch mapper b (runLoop mapper oracle cols rules bs1 0 s)).1 ≠ [])
    (hdedup : deduplicateRecords
        (processBatch mapper b (runLoop mapper oracle cols rules bs1 0 s)).1 cols
        MergeStrategy.merge rules = some (deduped, dupInfo)) :
    runLoop mapper oracle cols rules (bs1 ++ b :: bs2) 0 s
      = runLoop mapper oracle cols rules bs2 (bs1.length + 1)
          (batchStep mapper (oracle bs1.length) cols rules b
            (runLoop mapper oracle cols rules bs1 0 s))
    ∧ (batchStep mapper (oracle bs1.length) cols rules b
          (runLoop mapper oracle cols rules bs1 0 s)).database_errors
        = (runLoop mapper oracle cols rules bs1 0 s).database_errors + 1
    ∧ (batchStep mapper (oracle bs1.length) cols rules b
          (runLoop mapper oracle cols rules bs1 0 s)).total_output_records
        = (runLoop mapper oracle cols rules bs1 0 s).total_output_records
    ∧ (∀ (i : Nat) (b2 : List Row) (s2 : ProcessingStats) (d2 : List Record)
          (info2 : GroupList),
        oracle i = true →
        (processBatch mapper b2 s2).1 ≠ [] →
        deduplicateRecords (processBatch mapper b2 s2).1 cols MergeStrategy.merge rules
          = some (d2, info2) →
        (batchStep mapper (oracle i) cols rules b2 s2).total_output_records
            = s2.total_output_records + d2.length
        ∧ (batchStep mapper (oracle i) cols rules b2 s2).database_errors
            = s2.database_errors) := by
  have hpres := processBatchGo_preserved mapper b []
    (runLoop mapper oracle cols rules bs1 0 s)
  have hemp : (processBatch mapper b (runLoop mapper oracle cols rules bs1 0 s)).1.isEmpty
      = false := by
    rw [List.isEmpty_eq_false]
    exact hrecs
  refine ⟨?_, ?_, ?_, ?_⟩
  · rw [runLoop_append mapper oracle cols rules bs1 (b :: bs2) 0 s]
    simp only [Nat.zero_add]
    rfl
  · rw [hfail]
    unfold batchStep
    simp only [hemp, Bool.false_eq_true, if_false]
    unfold insertBatch
    simp only [hemp, Bool.false_eq_true, if_false, hdedup]
    exact congrArg (fun n => n + 1) hpres.2.2.1
  · rw [hfail]
    unfold batchStep
    simp only [hemp, Bool.false_eq_true, if_false]
    unfold insertBatch
    simp only [hemp, Bool.false_eq_true, if_false, hdedup]
    rw [Nat.add_zero]
    exact hpres.2.1
  · intro i b2 s2 d2 info2 hok hrecs2 hdedup2
    have hpres2 := processBatchGo_preserved mapper b2 [] s2
    have hemp2 : (processBatch mapper b2 s2).1.isEmpty = false := by
      rw [List.isEmpty_eq_false]
      exact hrecs2
    rw [hok]
    unfold batchStep
    simp only [hemp2, Bool.false_eq_true, if_false]
    unfold insertBatch
    simp only [hemp2, Bool.false_eq_true, if_false, hdedup2, if_true]
    exact ⟨congrArg (fun n => n + d2.length) hpres2.2.1, hpres2.2.2.1⟩

/-- Witness for C5: with three one-row batches and the persister failing on
the middle one, the middle batch step adds one database error on top of the
state left by the first batch. -/
theorem batch_failure_isolation_instance :
    (batchStep (fun _ : Nat => Except.ok (some [("id", PyVal.vstr "a")])) false ["id"] [] [1]
        (runLoop (fun _ : Nat => Except.ok (some [("id", PyVal.vstr "a")]))
          (fun i => i != 1) ["id"] [] [[0]] 0 (freshStats 3))).database_errors
      = (runLoop (fun _ : Nat => Except.ok (some [("id", PyVal.vstr "a")]))
          (fun i => i != 1) ["id"] [] [[0]] 0 (freshStats 3)).database_errors + 1 :=
  (batch_failure_isolation (fun _ : Nat => Except.ok (some [("id", PyVal.vstr "a")]))
    (fun i => i != 1) ["id"] [] [[0]] [[2]] [1] (freshStats 3)
    [[("id", PyVal.vstr "a")]] [] (by decide) (by decide) (by decide)).2.1

/-- C6 counterexample: a mapper that returns a non-null but empty (falsy)
record has its row counted as skipped, with nothing appended and
successful_records untouched, so a returned record does not always increment
successful_records. -/
theorem row_trichotomy_fails_on_empty_record :
    (fun _ : Nat => (Except.ok (some ([] : Record)) : Except Unit (Option Record))) 0
        = Except.ok (some ([] : Record))
    ∧ (processBatch (fun _ : Nat => Except.ok (some ([] : Record))) [0] (freshStats 1)).1 = []
    ∧ (processBatch (fun _ : Nat => Except.ok (some ([] : Record))) [0]
        (freshStats 1)).2.successful_records = 0
    ∧ (processBatch (fun _ : Nat => Except.ok (some ([] : Record))) [0]
        (freshStats 1)).2.skipped_records = 1 :=
  ⟨rfl, by decide, by decide, by decide⟩

/-- C6 (amended): a processed row has exactly three counter outcomes -- a
returned truthy (non-empty) record is appended and counted successful, a null
or empty (falsy) return is counted skipped with nothing appended, and a raised
exception is caught for that row only and counted as an error -- and in every
case the loop continues with the remaining rows. -/
theorem row_outcome_cases (mapper : RowMapper Row) (row : Row) (rest : List Row)
    (acc : List Record) (s : ProcessingStats) :
    (∀ r, mapper row = Except.ok (some r) → r ≠ [] →
      processBatchGo mapper (row :: rest) acc s
        = processBatchGo mapper rest (acc ++ [r])
            { s with successful_records := s.successful_records + 1 })
    ∧ (∀ r, mapper row = Except.ok (some r) → r = [] →
      processBatchGo mapper (row :: rest) acc s
        = processBatchGo mapper rest acc
            { s with skipped_records := s.skipped_records + 1 })
    ∧ (mapper row = Except.ok none →
      processBatchGo mapper (row :: rest) acc s
        = processBatchGo mapper rest acc
            { s with skipped_records := s.skipped_records + 1 })
    ∧ (∀ e, mapper row = Except.error e →
      processBatchGo mapper (row :: rest) acc s
        = processBatchGo mapper rest acc
            { s with error_records := s.error_records + 1 }) := by
  refine ⟨?_, ?_, ?_, ?_⟩
  · intro r h hne
    have hemp : r.isEmpty = false := List.isEmpty_eq_false.mpr hne
    simp only [processBatchGo, h, hemp, Bool.false_eq_true, if_false]
  · intro r h he
    subst he
    simp only [processBatchGo, h, List.isEmpty_nil, if_true]
  · intro h
    simp only [processBatchGo, h]
  · intro e h
    simp only [processBatchGo, h]

/-- Witness for C6 (amended): the three outcomes at concrete mappers that
return a non-empty record, a null, and an exception respectively. -/
theorem row_outcome_cases_instance :
    processBatchGo (fun _ : Nat => Except.ok (some [("a", PyVal.vnum 1)])) [0] [] (freshStats 1)
      = processBatchGo (fun _ : Nat => Except.ok (some [("a", PyVal.vnum 1)])) []
          ([] ++ [[("a", PyVal.vnum 1)]])
          { freshStats 1 with successful_records := (freshStats 1).successful_records + 1 }
    ∧ processBatchGo (fun _ : Nat => Except.ok (none : Option Record)) [0] [] (freshStats 1)
      = processBatchGo (fun _ : Nat => Except.ok (none : Option Record)) [] []
          { freshStats 1 with skipped_records := (freshStats 1).skipped_records + 1 }
    ∧ processBatchGo (fun _ : Nat => (Except.error () : Except Unit (Option Record))) [0] []
          (freshStats 1)
      = processBatchGo (fun _ : Nat => (Except.error () : Except Unit (Option Record))) [] []
          { freshStats 1 with error_records := (freshStats 1).error_records + 1 } :=
  ⟨(row_outcome_cases (fun _ : Nat => Except.ok (some [("a", PyVal.vnum 1)])) 0 [] []
      (freshStats 1)).1 [("a", PyVal.vnum 1)] rfl (by decide),
    (row_outcome_cases (fun _ : Nat => Except.ok (none : Option Record)) 0 [] []
      (freshStats 1)).2.2.1 rfl,
    (row_outcome_cases (fun _ : Nat => (Except.error () : Except Unit (Option Record))) 0 [] []
      (freshStats 1)).2.2.2 () rfl⟩

/-- C10: a row whose mapper returns a non-null but falsy (empty) record is
counted in skipped_records and excluded from the batch output -- the skip
test is truthiness of the returned record, not a comparison with null. -/
theorem falsy_record_skipped (mapper : RowMapper Row) (row : Row) (rest : List Row)
    (acc : List Record) (s : ProcessingStats) (r : Record)
    (hr : mapper row = Except.ok (some r)) (hempty : r = []) :
    processBatchGo mapper (row :: rest) acc s
      = processBatchGo mapper rest acc { s with skipped_records := s.skipped_records + 1 }
    ∧ processBatch mapper (row :: rest) s
      = processBatch mapper rest { s with skipped_records := s.skipped_records + 1 } := by
  subst hempty
  constructor
  · simp only [processBatchGo, hr, List.isEmpty_nil, if_true]
  · unfold processBatch
    simp only [processBatchGo, hr, List.isEmpty_nil, if_true]

/-- Witness for C10: a two-row batch whose first row maps to an empty record
processes like the remaining rows with only skipped_records advanced. -/
theorem falsy_record_skipped_instance :
    processBatch (fun _ : Nat => Except.ok (some ([] : Record))) [0, 1] (freshStats 2)
      = processBatch (fun _ : Nat => Except.ok (some ([] : Record))) [1]
          { freshStats 2 with skipped_records := (freshStats 2).skipped_records + 1 } :=
  (falsy_record_skipped (fun _ : Nat => Except.ok (some ([] : Record))) 0 [1] [] (freshStats 2)
    [] rfl rfl).2

/-! ### Grouping lemmas for deduplicate_records -/

theorem enumFrom_append_singleton (x : α) :
    ∀ (l : List α) (i : Nat), enumFrom i (l ++ [x]) = enumFrom i l ++ [(i + l.length, x)] := by
  intro l
  induction l with
  | nil => intro i; simp [enumFrom]
  | cons y ys ih =>
    intro i
    show (i, y) :: enumFrom (i + 1) (ys ++ [x]) = (i, y) :: (enumFrom (i + 1) ys ++ _)
    rw [ih (i + 1)]
    have harith : i + 1 + ys.length = i + (ys.length + 1) := by omega
    simp only [List.length_cons, harith]

theorem mem_enumFrom {p : Nat × α} :
    ∀ (l : List α) (i : Nat), p ∈ enumFrom i l → p.2 ∈ l := by
  intro l
  induction l with
  | nil => intro i h; exact absurd h (List.not_mem_nil p)
  | cons y ys ih =>
    intro i h
    rcases List.mem_cons.mp h with rfl | h2
    · exact List.mem_cons_self _ _
    · exact List.mem_cons_of_mem _ (ih (i + 1) h2)

theorem buildGroups_append_singleton (records : List Record) (r : Record) (cols : List String) :
    buildGroups (records ++ [r]) cols
      = groupInsert (buildGroups records cols) (createConflictKey r cols)
          (records.length, r) := by
  unfold buildGroups
  rw [enumFrom_append_singleton, List.foldl_append]
  simp

theorem groupOf_append_singleton (records : List Record) (r : Record) (cols : List String)
    (k : List PyVal) :
    groupOf (records ++ [r]) cols k
      = groupOf records cols k
          ++ (if createConflictKey r cols = k then [(records.length, r)] else []) := by
  unfold groupOf
  rw [enumFrom_append_singleton, List.filter_append]
  congr 1
  by_cases hk : createConflictKey r cols = k
  · simp [hk]
  · simp [hk]

theorem groupOf_eq_nil_of_not_mem (records : List Record) (cols : List String)
    (k : List PyVal) (h : k ∉ records.map (fun r => createConflictKey r cols)) :
    groupOf records cols k = [] := by
  unfold groupOf
  rw [List.filter_eq_nil_iff]
  intro p hp
  simp only [decide_eq_true_eq]
  intro hkey
  exact h (List.mem_map.mpr ⟨p.2, mem_enumFrom records 0 hp, hkey⟩)

theorem keysOf_append_singleton (records : List Record) (r : Record) (cols : List String) :
    keysOf (records ++ [r]) cols
      = keysOf records cols
          ++ (if createConflictKey r cols ∈ records.map (fun r2 => createConflictKey r2 cols)
              then [] else [createConflictKey r cols]) := by
  unfold keysOf
  rw [List.map_append, List.map_singleton, firstSeen_append_singleton]
  congr 1
  by_cases hmem : createConflictKey r cols ∈ records.map (fun r2 => createConflictKey r2 cols)
  · rw [if_pos hmem, if_pos hmem]
  · rw [if_neg hmem, if_neg hmem]

theorem map_pair_if_of_not_mem [DecidableEq κ] (k : κ) (G X : κ → List β) :
    ∀ (ks : List κ), k ∉ ks →
      ks.map (fun j => (j, if j = k then X j else G j)) = ks.map (fun j => (j, G j)) := by
  intro ks
  induction ks with
  | nil => intro h; rfl
  | cons j js ih =>
    intro h
    have hjk : j ≠ k := fun he => h (he ▸ List.mem_cons_self j js)
    simp only [List.map_cons, if_neg hjk]
    rw [ih (fun hin => h (List.mem_cons_of_mem _ hin))]

theorem groupInsert_map_of_mem [DecidableEq PyVal] (k : List PyVal)
    (G : List PyVal → List (Nat × Record)) (p : Nat × Record) :
    ∀ (ks : List (List PyVal)), ks.Nodup → k ∈ ks →
      groupInsert (ks.map (fun j => (j, G j))) k p
        = ks.map (fun j => (j, if j = k then G j ++ [p] else G j)) := by
  intro ks
  induction ks with
  | nil => intro _ h; exact absurd h (List.not_mem_nil k)
  | cons j js ih =>
    intro hnd hk
    rcases List.mem_cons.mp hk with rfl | hk2
    · show groupInsert ((k, G k) :: js.map (fun j => (j, G j))) k p = _
      unfold groupInsert
      rw [if_pos rfl]
      simp only [List.map_cons, if_pos rfl]
      congr 1
      exact (map_pair_if_of_not_mem k G (fun j => G j ++ [p]) js
        (List.nodup_cons.mp hnd).1).symm
    · have hjk : j ≠ k := by
        intro he
        exact (List.nodup_cons.mp hnd).1 (he ▸ hk2)
      show groupInsert ((j, G j) :: js.map (fun i => (i, G i))) k p = _
      unfold groupInsert
      rw [if_neg (by simpa using hjk)]
      simp only [List.map_cons, if_neg hjk]
      congr 1
      exact ih (List.nodup_cons.mp hnd).2 hk2

theorem groupInsert_map_of_not_mem [DecidableEq PyVal] (k : List PyVal)
    (G : List PyVal → List (Nat × Record)) (p : Nat × Record) :
    ∀ (ks : List (List PyVal)), k ∉ ks →
      groupInsert (ks.map (fun j => (j, G j))) k p
        = ks.map (fun j => (j, G j)) ++ [(k, [p])] := by
  intro ks
  induction ks with
  | nil => intro _; rfl
  | cons j js ih =>
    intro h
    have hjk : j ≠ k := fun he => h (he ▸ List.mem_cons_self j js)
    show groupInsert ((j, G j) :: js.map (fun i => (i, G i))) k p = _
    unfold groupInsert
    rw [if_neg (by simpa using hjk)]
    simp only [List.map_cons, List.cons_append]
    congr 1
    exact ih (fun hin => h (List.mem_cons_of_mem _ hin))

theorem buildGroups_eq_specGroups (records : List Record) (cols : List String) :
    buildGroups records cols = specGroups records cols := by
  induction records using List.reverseRecOn with
  | nil => rfl
  | append_singleton l r ih =>
    rw [buildGroups_append_singleton, ih]
    unfold specGroups
    rw [keysOf_append_singleton]
    by_cases hk : createConflictKey r cols ∈ l.map (fun r2 => createConflictKey r2 cols)
    · rw [if_pos hk, List.append_nil]
      have hmem : createConflictKey r cols ∈ keysOf l cols := by
        unfold keysOf
        rw [mem_firstSeen]
        exact hk
      rw [groupInsert_map_of_mem _ _ _ _ (by unfold keysOf; exact firstSeen_nodup _) hmem]
      apply List.map_congr_left
      intro j hj
      by_cases hjk : j = createConflictKey r cols
      · rw [if_pos hjk, groupOf_append_singleton, if_pos hjk.symm]
      · rw [if_neg hjk, groupOf_append_singleton, if_neg (fun he => hjk he.symm),
          List.append_nil]
    · rw [if_neg hk]
      have hnmem : createConflictKey r cols ∉ keysOf l cols := by
        unfold keysOf
        rw [mem_firstSeen]
        exact hk
      rw [groupInsert_map_of_not_mem _ _ _ _ hnmem, List.map_append, List.map_singleton]
      congr 1
      · apply List.map_congr_left
        intro j hj
        have hjmem : j ∈ l.map (fun r2 => createConflictKey r2 cols) := by
          unfold keysOf at hj
          rw [mem_firstSeen] at hj
          exact hj
        have hjk : createConflictKey r cols ≠ j := fun he => hk (he ▸ hjmem)
        rw [groupOf_append_singleton, if_neg hjk, List.append_nil]
      · rw [groupOf_append_singleton, if_pos rfl,
          groupOf_eq_nil_of_not_mem l cols _ hk, List.nil_append]

/-- C2: a completed deduplicate_records call returns one output record per
distinct conflict key (hence output size at most input size), the outputs
resolve the spec-side groups taken in first-seen key order, and the returned
duplicates report is exactly the groups of size greater than one keyed by
conflict key with (position, record) pairs in encounter order. -/
theorem dedup_shape_and_report (records : List Record) (cols : List String)
    (strategy : MergeStrategy) (rules : List (String × FieldMergeMode))
    (out : List Record) (dups : GroupList)
    (h : deduplicateRecords records cols strategy rules = some (out, dups)) :
    out.length = (keysOf records cols).length
    ∧ out.length ≤ records.length
    ∧ mapOption (resolveGroup strategy rules) (specGroups records cols) = some out
    ∧ dups = (specGroups records cols).filter (fun g => decide (1 < g.2.length)) := by
  simp only [deduplicateRecords] at h
  cases hmo : mapOption (resolveGroup strategy rules) (buildGroups records cols) with
  | none =>
    rw [hmo] at h
    exact absurd h (by simp)
  | some out2 =>
    rw [hmo] at h
    simp only [Option.map_some', Option.some.injEq, Prod.mk.injEq] at h
    obtain ⟨rfl, rfl⟩ := h
    have hlen := mapOption_some_length hmo
    rw [buildGroups_eq_specGroups] at hlen
    unfold specGroups at hlen
    rw [List.length_map] at hlen
    refine ⟨hlen, ?_, ?_, ?_⟩
    · rw [hlen]
      calc (keysOf records cols).length
          ≤ (records.map (fun r => createConflictKey r cols)).length :=
            firstSeen_length_le _
        _ = records.length := List.length_map _ _
    · rw [← buildGroups_eq_specGroups]
      exact hmo
    · rw [← buildGroups_eq_specGroups]

/-- Witness for C2: three records collapsing to two distinct conflict keys
give two outputs and a one-group duplicates report holding the positioned
pair list of the repeated key. -/
theorem dedup_shape_and_report_instance :
    ([[("id", PyVal.vnum 1)], [("id", PyVal.vnum 2)]] : List Record).length
      = (keysOf [[("id", PyVal.vnum 1)], [("id", PyVal.vnum 1)], [("id", PyVal.vnum 2)]]
          ["id"]).length
    ∧ ([([PyVal.vnum 1], [(0, [("id", PyVal.vnum 1)]), (1, [("id", PyVal.vnum 1)])])]
          : GroupList)
      = (specGroups [[("id", PyVal.vnum 1)], [("id", PyVal.vnum 1)], [("id", PyVal.vnum 2)]]
          ["id"]).filter (fun g => decide (1 < g.2.length)) :=
  ⟨(dedup_shape_and_report
      [[("id", PyVal.vnum 1)], [("id", PyVal.vnum 1)], [("id", PyVal.vnum 2)]] ["id"]
      MergeStrategy.last [] [[("id", PyVal.vnum 1)], [("id", PyVal.vnum 2)]]
      [([PyVal.vnum 1], [(0, [("id", PyVal.vnum 1)]), (1, [("id", PyVal.vnum 1)])])]
      (by decide)).1,
    (dedup_shape_and_report
      [[("id", PyVal.vnum 1)], [("id", PyVal.vnum 1)], [("id", PyVal.vnum 2)]] ["id"]
      MergeStrategy.last [] [[("id", PyVal.vnum 1)], [("id", PyVal.vnum 2)]]
      [([PyVal.vnum 1], [(0, [("id", PyVal.vnum 1)]), (1, [("id", PyVal.vnum 1)])])]
      (by decide)).2.2.2⟩
